import Mathlib

/-!
Verification of the contrarian reversal backtesting engine
(`contrarian_reversal_strategy.py`).

The engine is embedded shallowly:

* A cleaned price series (`series = prices[col].dropna()`) is a `List ℚ`.
* `pct_change` of the series is a `List (Option ℚ)`: entry 0 and any
  entry whose denominator is zero are non-finite floats in the source
  (NaN or ±inf), modelled uniformly as `none`; all other entries are
  `some (p i / p (i-1) - 1)`.
* Timestamps of the period series are modelled by their indices, so
  "one period after time t" is index `t + 1`.
* Floating point arithmetic is modelled by exact rationals.
-/

/-- One step of `calc_streaks`: a non-finite (`none`) or zero return resets
both counters, a positive return extends the up run and clears the down
run, a negative return extends the down run and clears the up run. -/
def streakStep (s : Nat × Nat) (val : Option ℚ) : Nat × Nat :=
  match val with
  | none => (0, 0)
  | some v => if v = 0 then (0, 0) else if 0 < v then (s.1 + 1, 0) else (0, s.2 + 1)

/-- The running streak states after each element, starting from state `s`
(`calc_streaks` writes the state into the output row after every step). -/
def streaksFrom (s : Nat × Nat) : List (Option ℚ) → List (Nat × Nat)
  | [] => []
  | v :: rest => streakStep s v :: streaksFrom (streakStep s v) rest

/-- `calc_streaks`: per-index pairs `(up_streak, down_streak)` obtained by
folding `streakStep` over the return series from the initial state (0,0). -/
def calc_streaks (returns : List (Option ℚ)) : List (Nat × Nat) :=
  streaksFrom (0, 0) returns

/-- `series.pct_change()`: entry 0 is NaN; an entry with a zero previous
price is non-finite in the source; both are modelled as `none`. -/
def pct_change (p : List ℚ) : List (Option ℚ) :=
  (List.range p.length).map fun i =>
    if i = 0 then none
    else if p.getD (i - 1) 0 = 0 then none
    else some (p.getD i 0 / p.getD (i - 1) 0 - 1)

lemma streakStep_mutex (s : Nat × Nat) (v : Option ℚ) :
    (streakStep s v).1 = 0 ∨ (streakStep s v).2 = 0 := by
  cases v with
  | none => left; rfl
  | some x =>
      by_cases h0 : x = 0
      · left; simp [streakStep, h0]
      · by_cases hpos : 0 < x
        · right; simp [streakStep, h0, hpos]
        · left; simp [streakStep, h0, hpos]

lemma streaksFrom_mutex (rs : List (Option ℚ)) :
    ∀ s p, p ∈ streaksFrom s rs → p.1 = 0 ∨ p.2 = 0 := by
  induction rs with
  | nil => intro s p hp; simp [streaksFrom] at hp
  | cons v rest ih =>
      intro s p hp
      simp only [streaksFrom, List.mem_cons] at hp
      rcases hp with h | h
      · subst h; exact streakStep_mutex s v
      · exact ih (streakStep s v) p h

/-- C1. The streak detector updates per step exactly as specified: a
non-finite or zero return resets both counters, a positive return
increments `up_run` and clears `down_run`, a negative return increments
`down_run` and clears `up_run`; consequently, after every step of
`calc_streaks`, at most one of the two counters is nonzero. -/
theorem calc_streaks_step_spec_and_mutex (rs : List (Option ℚ)) :
    (∀ s : Nat × Nat,
      streakStep s none = (0, 0) ∧
      streakStep s (some 0) = (0, 0) ∧
      (∀ v : ℚ, 0 < v → streakStep s (some v) = (s.1 + 1, 0)) ∧
      (∀ v : ℚ, v < 0 → streakStep s (some v) = (0, s.2 + 1))) ∧
    (∀ p ∈ calc_streaks rs, p.1 = 0 ∨ p.2 = 0) := by
  constructor
  · intro s
    refine ⟨rfl, by simp [streakStep], ?_, ?_⟩
    · intro v hv
      simp [streakStep, ne_of_gt hv, hv]
    · intro v hv
      simp [streakStep, ne_of_lt hv, not_lt_of_lt hv]
  · intro p hp
    exact streaksFrom_mutex rs (0, 0) p hp

/-- Witness for C1 at a concrete return sequence and concrete step inputs. -/
theorem calc_streaks_step_spec_and_mutex_witness :
    streakStep (2, 3) (some 5) = (3, 0) ∧
    streakStep (2, 3) (some (-5)) = (0, 4) ∧
    ((0, 1) ∈ calc_streaks [some 2, some (-3)] → ((0 : Nat), (1 : Nat)).1 = 0 ∨ ((0 : Nat), (1 : Nat)).2 = 0) := by
  refine ⟨?_, ?_, ?_⟩
  · exact ((calc_streaks_step_spec_and_mutex []).1 (2, 3)).2.2.1 5 (by norm_num)
  · exact ((calc_streaks_step_spec_and_mutex []).1 (2, 3)).2.2.2 (-5) (by norm_num)
  · exact (calc_streaks_step_spec_and_mutex [some 2, some (-3)]).2 (0, 1)

/-- Per-frequency configuration record (`freq_cfg` in the source):
streak thresholds, holding length and minimum amplitude filter. -/
structure FreqCfg where
  up_streak : Nat
  down_streak : Nat
  holding_periods : Nat
  min_amplitude : ℚ
deriving DecidableEq

/-- Per-asset-class position parameters (one entry of `config["position"]`;
the caller resolves the `asset_class` lookup with its DEFAULT fallback). -/
structure PosParams where
  sensitivity : ℚ
  min_pos : ℚ
  max_pos : ℚ
deriving DecidableEq

/-- One emitted trade (the fields of the source `Trade` dataclass that the
claims touch; times are indices into the period series). -/
structure Trade where
  signal_idx : Nat
  entry_idx : Nat
  exit_idx : Nat
  direction : Int
  streak_len : Nat
  amplitude : ℚ
  raw_weight : ℚ
  trade_return : ℚ
deriving DecidableEq

/-- `position_from_amplitude`: weight = sensitivity × |amplitude|, raised to
`min_pos`, capped at `max_pos`, then capped at the portfolio-wide
`per_symbol_cap`; a zero amplitude yields weight 0. -/
def position_from_amplitude (amplitude : ℚ) (pp : PosParams) (per_symbol_cap : ℚ) : ℚ :=
  if |amplitude| ≤ 0 then 0
  else min (min (max (pp.sensitivity * |amplitude|) pp.min_pos) pp.max_pos) per_symbol_cap

/-- Signal decision at one period (lines 249-259 of the source): in
long-only mode only a long streak of declines triggers; in dual mode an
up-run meeting its threshold triggers a short first, otherwise a down-run
meeting its threshold triggers a long. Returns (direction, streak_len). -/
def signalAt (long_only : Bool) (up_need down_need : Nat) (up_run down_run : Nat) :
    Int × Nat :=
  if long_only then
    if down_need ≤ down_run then (1, down_run) else (0, 0)
  else
    if up_need ≤ up_run then (-1, up_run)
    else if down_need ≤ down_run then (1, down_run)
    else (0, 0)

/-- The streak pair `streaks.iloc[pos]` for the given price series. -/
def streakPair (prices : List ℚ) (pos : Nat) : Nat × Nat :=
  (calc_streaks (pct_change prices)).getD pos (0, 0)

/-- The signal candidate at position `pos` of the series. -/
def candAt (lo : Bool) (cfg : FreqCfg) (prices : List ℚ) (pos : Nat) : Int × Nat :=
  signalAt lo cfg.up_streak cfg.down_streak (streakPair prices pos).1 (streakPair prices pos).2

/-- Streak amplitude `series.iloc[pos] / series.iloc[start_idx] - 1` with
`start_idx = pos - streak_len + 1`. -/
def amplitudeAt (prices : List ℚ) (pos streak_len : Nat) : ℚ :=
  prices.getD pos 0 / prices.getD (pos + 1 - streak_len) 0 - 1

/-- The holding-window return slice `returns.iloc[entry : exit+1].dropna()`. -/
def retSlice (prices : List ℚ) (entry exit_idx : Nat) : List ℚ :=
  (((pct_change prices).drop entry).take (exit_idx + 1 - entry)).filterMap id

/-- Compounded holding-period return `∏(1 + r) − 1` over the slice. -/
def gross_return (prices : List ℚ) (entry exit_idx : Nat) : ℚ :=
  ((retSlice prices entry exit_idx).map (fun r => 1 + r)).prod - 1

/-- Body of the candidate loop after the signal decision (lines 261-300):
drops the candidate when the streak start precedes the history, when the
exit index is outside the history, when the return slice is short, when
the amplitude is below the filter, or when the weight is non-positive;
otherwise emits the fully populated trade. -/
def mkTrade (cfg : FreqCfg) (pp : PosParams) (cap : ℚ) (prices : List ℚ)
    (pos : Nat) (direction : Int) (streak_len : Nat) : Option Trade :=
  if pos + 1 < streak_len then none
  else if prices.length ≤ pos + 1 + cfg.holding_periods - 1 then none
  else if (retSlice prices (pos + 1) (pos + 1 + cfg.holding_periods - 1)).length < cfg.holding_periods then none
  else if |amplitudeAt prices pos streak_len| < cfg.min_amplitude then none
  else if position_from_amplitude (amplitudeAt prices pos streak_len) pp cap ≤ 0 then none
  else some
    { signal_idx := pos
      entry_idx := pos + 1
      exit_idx := pos + 1 + cfg.holding_periods - 1
      direction := direction
      streak_len := streak_len
      amplitude := amplitudeAt prices pos streak_len
      raw_weight := position_from_amplitude (amplitudeAt prices pos streak_len) pp cap
      trade_return := gross_return prices (pos + 1) (pos + 1 + cfg.holding_periods - 1) }

/-- One iteration of the signal loop at position `pos`. -/
def tradeAt (lo : Bool) (cfg : FreqCfg) (pp : PosParams) (cap : ℚ) (prices : List ℚ)
    (pos : Nat) : Option Trade :=
  if (candAt lo cfg prices pos).1 = 0 ∨ (candAt lo cfg prices pos).2 = 0 then none
  else mkTrade cfg pp cap prices pos (candAt lo cfg prices pos).1 (candAt lo cfg prices pos).2

/-- `generate_trades` for one price column: the whole symbol is skipped when
its history is shorter than `up_streak + down_streak + 5`; otherwise the
loop runs `pos = 1 .. len - holding_periods - 1`. -/
def generate_trades (lo : Bool) (cfg : FreqCfg) (pp : PosParams) (cap : ℚ)
    (prices : List ℚ) : List Trade :=
  if prices.length < cfg.up_streak + cfg.down_streak + 5 then []
  else ((List.range (prices.length - cfg.holding_periods - 1)).map (· + 1)).filterMap
    (tradeAt lo cfg pp cap prices)

lemma signalAt_thresholds (lo : Bool) (un dn u d : Nat) :
    ((signalAt lo un dn u d).1 = 1 → dn ≤ (signalAt lo un dn u d).2) ∧
    ((signalAt lo un dn u d).1 = -1 → un ≤ (signalAt lo un dn u d).2) := by
  cases lo with
  | true =>
      by_cases hd : dn ≤ d
      · simp only [signalAt, if_pos hd]
        exact ⟨fun _ => hd, fun h => by simp at h⟩
      · simp only [signalAt, if_neg hd]
        exact ⟨fun h => by simp at h, fun h => by simp at h⟩
  | false =>
      by_cases hu : un ≤ u
      · simp only [signalAt, if_pos hu]
        exact ⟨fun h => by simp at h, fun _ => hu⟩
      · by_cases hd : dn ≤ d
        · simp only [signalAt, if_neg hu, if_pos hd]
          exact ⟨fun _ => hd, fun h => by simp at h⟩
        · simp only [signalAt, if_neg hu, if_neg hd]
          exact ⟨fun h => by simp at h, fun h => by simp at h⟩

lemma candAt_thresholds (lo : Bool) (cfg : FreqCfg) (prices : List ℚ) (pos : Nat) :
    ((candAt lo cfg prices pos).1 = 1 → cfg.down_streak ≤ (candAt lo cfg prices pos).2) ∧
    ((candAt lo cfg prices pos).1 = -1 → cfg.up_streak ≤ (candAt lo cfg prices pos).2) := by
  unfold candAt
  exact signalAt_thresholds lo cfg.up_streak cfg.down_streak _ _

lemma generate_trades_mem_spec {lo : Bool} {cfg : FreqCfg} {pp : PosParams} {cap : ℚ}
    {prices : List ℚ} {t : Trade} (ht : t ∈ generate_trades lo cfg pp cap prices) :
    ∃ pos : Nat,
      t.signal_idx = pos ∧
      t.direction = (candAt lo cfg prices pos).1 ∧
      t.streak_len = (candAt lo cfg prices pos).2 ∧
      ¬((candAt lo cfg prices pos).1 = 0 ∨ (candAt lo cfg prices pos).2 = 0) ∧
      t.entry_idx = pos + 1 ∧
      t.exit_idx = pos + 1 + cfg.holding_periods - 1 ∧
      t.exit_idx < prices.length ∧
      t.amplitude = amplitudeAt prices pos (candAt lo cfg prices pos).2 ∧
      cfg.min_amplitude ≤ |t.amplitude| ∧
      t.raw_weight = position_from_amplitude t.amplitude pp cap ∧
      0 < t.raw_weight := by
  unfold generate_trades at ht
  split at ht
  · simp at ht
  · obtain ⟨pos, hpin, htr⟩ := List.mem_filterMap.mp ht
    unfold tradeAt at htr
    split at htr
    · simp at htr
    · rename_i hguard
      unfold mkTrade at htr
      split at htr
      · simp at htr
      · split at htr
        · simp at htr
        · rename_i hstart hexit
          split at htr
          · simp at htr
          · split at htr
            · simp at htr
            · rename_i hslice hamp
              split at htr
              · simp at htr
              · rename_i hweight
                rw [Option.some_inj] at htr
                subst htr
                exact ⟨pos, rfl, rfl, rfl, hguard, rfl, rfl, Nat.lt_of_not_le hexit,
                  rfl, le_of_not_lt hamp, rfl, lt_of_not_le hweight⟩

/-- C2. Every emitted trade satisfies: its streak length meets the
configured threshold for its direction, its absolute amplitude meets the
minimum-amplitude filter, its entry index is one period after its signal
index, its exit index is the entry index plus (holding_periods − 1), and
both entry and exit indices lie inside the available history (an
out-of-range candidate is dropped, nothing partially recorded). -/
theorem generate_trades_emitted_invariants (lo : Bool) (cfg : FreqCfg) (pp : PosParams)
    (cap : ℚ) (prices : List ℚ) (hh : 1 ≤ cfg.holding_periods) :
    ∀ t ∈ generate_trades lo cfg pp cap prices,
      (t.direction = 1 → cfg.down_streak ≤ t.streak_len) ∧
      (t.direction = -1 → cfg.up_streak ≤ t.streak_len) ∧
      cfg.min_amplitude ≤ |t.amplitude| ∧
      t.entry_idx = t.signal_idx + 1 ∧
      t.exit_idx = t.entry_idx + (cfg.holding_periods - 1) ∧
      t.entry_idx < prices.length ∧ t.exit_idx < prices.length := by
  intro t ht
  obtain ⟨pos, hsig, hdir, hstreak, hguard, hentry, hexit, hexlt, hampeq, hamp, hraw, hrawpos⟩ :=
    generate_trades_mem_spec ht
  have hth := candAt_thresholds lo cfg prices pos
  have hform : t.exit_idx = t.entry_idx + (cfg.holding_periods - 1) := by
    rw [hexit, hentry]
    exact Nat.add_sub_assoc hh (pos + 1)
  refine ⟨?_, ?_, hamp, ?_, hform, ?_, hexlt⟩
  · intro h1
    rw [hdir] at h1
    rw [hstreak]
    exact hth.1 h1
  · intro h1
    rw [hdir] at h1
    rw [hstreak]
    exact hth.2 h1
  · rw [hentry, hsig]
  · have hle : t.entry_idx ≤ t.exit_idx := by
      rw [hform]
      exact Nat.le_add_right _ _
    exact lt_of_le_of_lt hle hexlt

/-- Concrete trade for the C2 witness. -/
def wTrade2 : Trade :=
  { signal_idx := 2, entry_idx := 3, exit_idx := 3, direction := 1, streak_len := 2,
    amplitude := -(1/2), raw_weight := 1/2, trade_return := 3 }

/-- Concrete price series for the C2 witness. -/
def wPrices2 : List ℚ := [16, 8, 4, 16, 16, 16, 16, 16, 16]

/-- Witness for C2 at a concrete series, configuration and emitted trade. -/
theorem generate_trades_emitted_invariants_witness :
    1 ≤ (1 : Nat) ∧
    wTrade2 ∈ generate_trades true ⟨2, 2, 1, 0⟩ ⟨1, 0, 1⟩ 1 wPrices2 ∧
    wTrade2.entry_idx = wTrade2.signal_idx + 1 :=
  ⟨by decide, by with_unfolding_all decide,
    (generate_trades_emitted_invariants true ⟨2, 2, 1, 0⟩ ⟨1, 0, 1⟩ 1 wPrices2
      (by decide) wTrade2 (by with_unfolding_all decide)).2.2.2.1⟩

/-- C5. Mode-dependent trigger: in long-only mode exactly the candidates
with `down_run ≥ down_threshold` fire, long, with `streak_len = down_run`,
and the up-run value never influences the outcome; in dual mode an up-run
meeting its threshold takes precedence and fires short with
`streak_len = up_run`, otherwise a down-run meeting its threshold fires
long, otherwise nothing fires. -/
theorem signal_mode_selection (un dn u d : Nat) :
    (dn ≤ d → signalAt true un dn u d = (1, d)) ∧
    (¬dn ≤ d → signalAt true un dn u d = (0, 0)) ∧
    (∀ u2 : Nat, signalAt true un dn u d = signalAt true un dn u2 d) ∧
    (un ≤ u → signalAt false un dn u d = (-1, u)) ∧
    (¬un ≤ u → dn ≤ d → signalAt false un dn u d = (1, d)) ∧
    (¬un ≤ u → ¬dn ≤ d → signalAt false un dn u d = (0, 0)) := by
  refine ⟨?_, ?_, ?_, ?_, ?_, ?_⟩
  · intro h; simp [signalAt, h]
  · intro h; simp [signalAt, h]
  · intro u2; simp [signalAt]
  · intro h; simp [signalAt, h]
  · intro h hd; simp [signalAt, h, hd]
  · intro h hd; simp [signalAt, h, hd]

/-- Witness for C5 at concrete streak states in both modes. -/
theorem signal_mode_selection_witness :
    signalAt true 7 7 9 8 = (1, 8) ∧
    signalAt true 7 7 9 3 = (0, 0) ∧
    signalAt false 7 7 8 9 = (-1, 8) ∧
    signalAt false 7 7 2 9 = (1, 9) ∧
    signalAt false 7 7 2 3 = (0, 0) :=
  ⟨(signal_mode_selection 7 7 9 8).1 (by decide),
   (signal_mode_selection 7 7 9 3).2.1 (by decide),
   (signal_mode_selection 7 7 8 9).2.2.2.1 (by decide),
   (signal_mode_selection 7 7 2 9).2.2.2.2.1 (by decide) (by decide),
   (signal_mode_selection 7 7 2 3).2.2.2.2.2 (by decide) (by decide)⟩

/-- C8. For nonnegative sensitivity and a sane clip configuration
(`0 ≤ min_pos ≤ max_pos` and `min_pos ≤ per_symbol_cap`), the position
size is monotonically non-decreasing in the absolute amplitude, every
nonzero amplitude receives a weight between `min_pos` and `max_pos`, and
`generate_trades` drops any candidate whose resulting weight is
non-positive: every emitted trade has a strictly positive raw weight. -/
theorem position_sizing_monotone_bounded (pp : PosParams) (cap : ℚ)
    (hs : 0 ≤ pp.sensitivity) (h0 : 0 ≤ pp.min_pos) (h1 : pp.min_pos ≤ pp.max_pos)
    (h2 : pp.min_pos ≤ cap) :
    (∀ a b : ℚ, |a| ≤ |b| →
      position_from_amplitude a pp cap ≤ position_from_amplitude b pp cap) ∧
    (∀ a : ℚ, a ≠ 0 →
      pp.min_pos ≤ position_from_amplitude a pp cap ∧
      position_from_amplitude a pp cap ≤ pp.max_pos) ∧
    (∀ (lo : Bool) (cfg : FreqCfg) (prices : List ℚ),
      ∀ t ∈ generate_trades lo cfg pp cap prices, 0 < t.raw_weight) := by
  have hlow : ∀ a : ℚ, ¬|a| ≤ 0 → pp.min_pos ≤ position_from_amplitude a pp cap := by
    intro a ha
    unfold position_from_amplitude
    rw [if_neg ha]
    exact le_min (le_min (le_max_right _ _) h1) h2
  refine ⟨?_, ?_, ?_⟩
  · intro a b hab
    by_cases ha : |a| ≤ 0
    · by_cases hb : |b| ≤ 0
      · unfold position_from_amplitude
        rw [if_pos ha, if_pos hb]
      · unfold position_from_amplitude
        rw [if_pos ha, if_neg hb]
        exact le_trans h0 (le_min (le_min (le_max_right _ _) h1) h2)
    · have hb : ¬|b| ≤ 0 := fun hb => ha (le_trans hab hb)
      unfold position_from_amplitude
      rw [if_neg ha, if_neg hb]
      refine min_le_min (min_le_min (max_le_max ?_ le_rfl) le_rfl) le_rfl
      exact mul_le_mul_of_nonneg_left hab hs
  · intro a ha
    have habs : ¬|a| ≤ 0 := by
      rw [not_le]
      exact abs_pos.mpr ha
    refine ⟨hlow a habs, ?_⟩
    unfold position_from_amplitude
    rw [if_neg habs]
    exact le_trans (min_le_left _ _) (min_le_right _ _)
  · intro lo cfg prices t ht
    obtain ⟨pos, _, _, _, _, _, _, _, _, _, _, hpos⟩ := generate_trades_mem_spec ht
    exact hpos

/-- Witness for C8 at the EQUITY sizing profile and a concrete amplitude. -/
theorem position_sizing_monotone_bounded_witness :
    (0 : ℚ) ≤ 4 ∧ (0 : ℚ) ≤ 1/20 ∧ (1/20 : ℚ) ≤ 2/5 ∧ (1/20 : ℚ) ≤ 3/5 ∧
    ((1/20 : ℚ) ≤ position_from_amplitude (-(7/100)) ⟨4, 1/20, 2/5⟩ (3/5) ∧
      position_from_amplitude (-(7/100)) ⟨4, 1/20, 2/5⟩ (3/5) ≤ 2/5) :=
  ⟨by norm_num, by norm_num, by norm_num, by norm_num,
    (position_sizing_monotone_bounded ⟨4, 1/20, 2/5⟩ (3/5) (by norm_num) (by norm_num)
      (by norm_num) (by norm_num)).2.1 (-(7/100)) (by norm_num)⟩

/-- Gross exposure of an entry cohort: the sum of absolute raw weights
(line 336). -/
def cohortGross (ws : List ℚ) : ℚ := (ws.map abs).sum

/-- Cohort scale factor (line 337): 1 when gross ≤ cap, otherwise
cap/gross, with 1 in the degenerate non-positive-gross case. -/
def cohortScale (cap : ℚ) (ws : List ℚ) : ℚ :=
  if cohortGross ws ≤ cap then 1
  else if 0 < cohortGross ws then cap / cohortGross ws else 1

/-- Scaled weights of a cohort (line 338): every raw weight times the one
cohort scale factor. -/
def scaleCohort (cap : ℚ) (ws : List ℚ) : List ℚ :=
  ws.map (fun w => w * cohortScale cap ws)

/-- Recorded cohort gross leverage (line 339): gross × scale. -/
def grossLeverage (cap : ℚ) (ws : List ℚ) : ℚ :=
  cohortGross ws * cohortScale cap ws

lemma cohortGross_nonneg (ws : List ℚ) : 0 ≤ cohortGross ws := by
  apply List.sum_nonneg
  intro x hx
  obtain ⟨w, _, hw⟩ := List.mem_map.mp hx
  rw [← hw]
  exact abs_nonneg w

lemma cohortScale_nonneg (cap : ℚ) (hcap : 0 ≤ cap) (ws : List ℚ) :
    0 ≤ cohortScale cap ws := by
  unfold cohortScale
  split
  · norm_num
  · split
    · exact div_nonneg hcap (le_of_lt (by assumption))
    · norm_num

lemma cohortScale_le_one (cap : ℚ) (hcap : 0 ≤ cap) (ws : List ℚ) :
    cohortScale cap ws ≤ 1 := by
  unfold cohortScale
  split
  · exact le_refl 1
  · rename_i hgt
    split
    · rename_i hpos
      rw [div_le_one hpos]
      exact le_of_lt (not_le.mp hgt)
    · exact le_refl 1

lemma sum_abs_map_mul (ws : List ℚ) (s : ℚ) (hs : 0 ≤ s) :
    ((ws.map (fun w => w * s)).map abs).sum = (ws.map abs).sum * s := by
  induction ws with
  | nil => simp
  | cons w rest ih =>
      simp only [List.map_cons, List.sum_cons, abs_mul, abs_of_nonneg hs, add_mul]
      rw [ih]

lemma sum_abs_scaleCohort (cap : ℚ) (hcap : 0 ≤ cap) (ws : List ℚ) :
    ((scaleCohort cap ws).map abs).sum = cohortGross ws * cohortScale cap ws := by
  have hs : 0 ≤ cohortScale cap ws := cohortScale_nonneg cap hcap ws
  unfold scaleCohort cohortGross
  exact sum_abs_map_mul ws _ hs

/-- C3. Cohort de-lever law: each member's scaled weight is its raw weight
times the single cohort scale factor, which is 1 when gross ≤ cap and
cap/gross when gross > cap; over the cap every nonzero member has the
identical scaled/raw ratio and the scaled absolute sum equals the cap
exactly; and the scaled absolute sum never exceeds the cap. -/
theorem cohort_proportional_delever (cap : ℚ) (hcap : 0 ≤ cap) (ws : List ℚ) :
    scaleCohort cap ws = ws.map (fun w => w * cohortScale cap ws) ∧
    (cohortGross ws ≤ cap → cohortScale cap ws = 1) ∧
    (cap < cohortGross ws → cohortScale cap ws = cap / cohortGross ws) ∧
    (cap < cohortGross ws → ∀ w ∈ ws, w ≠ 0 →
      (w * cohortScale cap ws) / w = cap / cohortGross ws) ∧
    (cap < cohortGross ws → ((scaleCohort cap ws).map abs).sum = cap) ∧
    ((scaleCohort cap ws).map abs).sum ≤ cap := by
  have hsum := sum_abs_scaleCohort cap hcap ws
  refine ⟨rfl, ?_, ?_, ?_, ?_, ?_⟩
  · intro h
    unfold cohortScale
    rw [if_pos h]
  · intro h
    have hpos : 0 < cohortGross ws := lt_of_le_of_lt hcap h
    unfold cohortScale
    rw [if_neg (not_le.mpr h), if_pos hpos]
  · intro h w hw hw0
    have hpos : 0 < cohortGross ws := lt_of_le_of_lt hcap h
    rw [mul_comm, mul_div_assoc, div_self hw0, mul_one]
    unfold cohortScale
    rw [if_neg (not_le.mpr h), if_pos hpos]
  · intro h
    have hpos : 0 < cohortGross ws := lt_of_le_of_lt hcap h
    rw [hsum]
    unfold cohortScale
    rw [if_neg (not_le.mpr h), if_pos hpos, mul_comm,
      div_mul_cancel₀ cap (ne_of_gt hpos)]
  · rw [hsum]
    by_cases h : cohortGross ws ≤ cap
    · unfold cohortScale
      rw [if_pos h, mul_one]
      exact h
    · have hpos : 0 < cohortGross ws := lt_of_le_of_lt hcap (not_le.mp h)
      unfold cohortScale
      rw [if_neg h, if_pos hpos, mul_comm, div_mul_cancel₀ cap (ne_of_gt hpos)]

/-- Witness for C3 at a concrete over-the-cap cohort. -/
theorem cohort_proportional_delever_witness :
    (0 : ℚ) ≤ 1 ∧ (1 : ℚ) < cohortGross [3/5, 3/5] ∧
    ((scaleCohort 1 [3/5, 3/5]).map abs).sum = 1 :=
  ⟨by norm_num, by with_unfolding_all decide,
   (cohort_proportional_delever 1 (by norm_num) [3/5, 3/5]).2.2.2.2.1
     (by with_unfolding_all decide)⟩

/-- C10. With a nonnegative cap the cohort scale factor lies in [0, 1], so
allocation never increases a nonnegative raw weight, and the recorded
gross leverage equals min(gross, cap). -/
theorem allocation_never_increases_exposure (cap : ℚ) (hcap : 0 ≤ cap) (ws : List ℚ) :
    0 ≤ cohortScale cap ws ∧ cohortScale cap ws ≤ 1 ∧
    (∀ w ∈ ws, 0 ≤ w → w * cohortScale cap ws ≤ w) ∧
    grossLeverage cap ws = min (cohortGross ws) cap := by
  refine ⟨cohortScale_nonneg cap hcap ws, cohortScale_le_one cap hcap ws, ?_, ?_⟩
  · intro w _ hw
    exact mul_le_of_le_one_right hw (cohortScale_le_one cap hcap ws)
  · unfold grossLeverage
    by_cases h : cohortGross ws ≤ cap
    · unfold cohortScale
      rw [if_pos h, mul_one, min_eq_left h]
    · have hlt := not_le.mp h
      have hpos : 0 < cohortGross ws := lt_of_le_of_lt hcap hlt
      unfold cohortScale
      rw [if_neg h, if_pos hpos, mul_comm, div_mul_cancel₀ cap (ne_of_gt hpos),
        min_eq_right (le_of_lt hlt)]

/-- Witness for C10 at a concrete over-the-cap cohort and member. -/
theorem allocation_never_increases_exposure_witness :
    (0 : ℚ) ≤ 1 ∧ (3/5 : ℚ) ∈ [(3/5 : ℚ), 3/5] ∧ (0 : ℚ) ≤ 3/5 ∧
    (3/5 : ℚ) * cohortScale 1 [3/5, 3/5] ≤ 3/5 ∧
    grossLeverage 1 [3/5, 3/5] = min (cohortGross [3/5, 3/5]) 1 :=
  ⟨by norm_num, List.mem_cons_self _ _, by norm_num,
   (allocation_never_increases_exposure 1 (by norm_num) [3/5, 3/5]).2.2.1
     (3/5) (List.mem_cons_self _ _) (by norm_num),
   (allocation_never_increases_exposure 1 (by norm_num) [3/5, 3/5]).2.2.2⟩

/-- Round-trip cost fraction (line 328): bps / 10000. -/
def cost_frac (bps : ℚ) : ℚ := bps / 10000

/-- Signed holding-period return (line 341): trade_return × direction. -/
def signed_return (trade_return : ℚ) (direction : Int) : ℚ :=
  trade_return * (direction : ℚ)

/-- Pnl of one allocated trade (line 342): scaled_weight × signed_return
minus scaled_weight × cost_frac. -/
def trade_pnl (bps scaled_weight trade_return : ℚ) (direction : Int) : ℚ :=
  scaled_weight * signed_return trade_return direction - scaled_weight * cost_frac bps

/-- C6. The executed pnl is scaled_weight × (trade_return × direction)
minus scaled_weight × (bps/10000); with zero cost it is exactly
scaled_weight × signed_return, and the cost term deducted from a long
trade equals the one deducted from a short trade of equal scaled weight. -/
theorem pnl_cost_model (bps sw tr : ℚ) (dir : Int) :
    trade_pnl bps sw tr dir = sw * (tr * (dir : ℚ)) - sw * (bps / 10000) ∧
    trade_pnl 0 sw tr dir = sw * signed_return tr dir ∧
    (∀ tr2 : ℚ,
      sw * signed_return tr 1 - trade_pnl bps sw tr 1 =
        sw * signed_return tr2 (-1) - trade_pnl bps sw tr2 (-1)) := by
  refine ⟨rfl, ?_, ?_⟩
  · simp [trade_pnl, cost_frac]
  · intro tr2
    simp only [trade_pnl]
    ring

/-- Trade record as read by the portfolio stage of `run_backtest`
(`entry_time`/`exit_time` are period indices on a common clock). -/
structure BTrade where
  entry_time : Nat
  exit_time : Nat
  direction : Int
  raw_weight : ℚ
  trade_return : ℚ
deriving DecidableEq

/-- Raw weights of the entry cohort of `t`: the `groupby("entry_time")`
group containing `t` (line 334). -/
def cohortOf (trades : List BTrade) (t : BTrade) : List ℚ :=
  (trades.filter (fun u => u.entry_time == t.entry_time)).map (fun u => u.raw_weight)

/-- A trade after the allocation pass, with its scaled weight and the
recorded cohort gross leverage. -/
structure AllocTrade where
  trade : BTrade
  scaled_weight : ℚ
  gross_leverage : ℚ
deriving DecidableEq

/-- Portfolio allocation pass (lines 331-339): every trade is scaled by
its own entry cohort's scale factor. -/
def allocate (cap : ℚ) (trades : List BTrade) : List AllocTrade :=
  trades.map fun t =>
    { trade := t
      scaled_weight := t.raw_weight * cohortScale cap (cohortOf trades t)
      gross_leverage := grossLeverage cap (cohortOf trades t) }

/-- Realized (exit_time, pnl) rows of the trades table (lines 341-342). -/
def pnlRows (cap bps : ℚ) (trades : List BTrade) : List (Nat × ℚ) :=
  (allocate cap trades).map fun a =>
    (a.trade.exit_time, trade_pnl bps a.scaled_weight a.trade.trade_return a.trade.direction)

/-- The distinct exit times present in the rows, in ascending order
(`groupby("exit_time") ... .sort_index()`, line 345). -/
def exitTimes (rows : List (Nat × ℚ)) : List Nat :=
  (List.range ((rows.map Prod.fst).foldr max 0 + 1)).filter
    (fun t => rows.any (fun r => r.1 == t))

/-- Per-period pnl series: each exit time with the summed pnl of the
trades exiting there (line 345). -/
def period_pnl (rows : List (Nat × ℚ)) : List (Nat × ℚ) :=
  (exitTimes rows).map fun t =>
    (t, ((rows.filter (fun r => r.1 == t)).map Prod.snd).sum)

/-- Compounding NAV series `(1 + pnl).cumprod()` from a running value. -/
def cumprod1 (acc : ℚ) : List ℚ → List ℚ
  | [] => []
  | p :: rest => acc * (1 + p) :: cumprod1 (acc * (1 + p)) rest

/-- The equity curve of a period pnl series (line 346). -/
def equity_curve (pnls : List ℚ) : List ℚ := cumprod1 1 pnls

lemma le_foldr_max (l : List Nat) : ∀ x ∈ l, x ≤ l.foldr max 0 := by
  induction l with
  | nil => intro x hx; simp at hx
  | cons a t ih =>
      intro x hx
      rcases List.mem_cons.mp hx with h | h
      · subst h; exact le_max_left _ _
      · exact le_trans (ih x h) (le_max_right _ _)

lemma cumprod1_step (pnls : List ℚ) : ∀ (acc : ℚ) (i : Nat), i + 1 < pnls.length →
    (cumprod1 acc pnls).getD (i + 1) 0 =
      (cumprod1 acc pnls).getD i 0 * (1 + pnls.getD (i + 1) 0) := by
  induction pnls with
  | nil => intro acc i h; simp at h
  | cons p rest ih =>
      intro acc i h
      cases i with
      | zero =>
          cases rest with
          | nil => simp at h
          | cons q rr => simp [cumprod1]
      | succ j =>
          have h2 : j + 1 < rest.length := by
            simp only [List.length_cons] at h
            omega
          simpa [cumprod1] using ih (acc * (1 + p)) j h2

/-- C7. The equity pipeline: the period pnl series is indexed by strictly
increasing exit times, each entry sums exactly the pnl of the rows with
that exit time, every row's exit time appears, and the equity curve
compounds, starting at 1 + first period pnl and multiplying each previous
value by (1 + current period pnl). -/
theorem equity_grouped_compounding (rows : List (Nat × ℚ)) :
    List.Pairwise (fun a b => a.1 < b.1) (period_pnl rows) ∧
    (∀ q ∈ period_pnl rows,
      q.2 = ((rows.filter (fun r => r.1 == q.1)).map Prod.snd).sum) ∧
    (∀ r ∈ rows, ∃ q ∈ period_pnl rows, q.1 = r.1) ∧
    (∀ (p0 : ℚ) (rest : List ℚ), (equity_curve (p0 :: rest)).getD 0 0 = 1 + p0) ∧
    (∀ (pnls : List ℚ) (i : Nat), i + 1 < pnls.length →
      (equity_curve pnls).getD (i + 1) 0 =
        (equity_curve pnls).getD i 0 * (1 + pnls.getD (i + 1) 0)) := by
  refine ⟨?_, ?_, ?_, ?_, ?_⟩
  · unfold period_pnl
    rw [List.pairwise_map]
    apply List.Pairwise.filter
    exact List.pairwise_lt_range _
  · intro q hq
    obtain ⟨t, _, hteq⟩ := List.mem_map.mp hq
    rw [← hteq]
  · intro r hr
    refine ⟨(r.1, ((rows.filter (fun x => x.1 == r.1)).map Prod.snd).sum), ?_, rfl⟩
    apply List.mem_map_of_mem
    unfold exitTimes
    rw [List.mem_filter]
    constructor
    · rw [List.mem_range]
      have : r.1 ≤ (rows.map Prod.fst).foldr max 0 :=
        le_foldr_max _ r.1 (List.mem_map_of_mem Prod.fst hr)
      omega
    · rw [List.any_eq_true]
      exact ⟨r, hr, by simp⟩
  · intro p0 rest
    simp [equity_curve, cumprod1]
  · intro pnls i h
    exact cumprod1_step pnls 1 i h

/-- Witness for C7 at a concrete rows list and a concrete index. -/
theorem equity_grouped_compounding_witness :
    ((1, (1/4 : ℚ)) ∈ period_pnl [(2, 1/2), (1, 1/4)]) ∧
    ((1 : Nat), (1/4 : ℚ)).2 =
      (([((2 : Nat), (1/2 : ℚ)), (1, 1/4)].filter
        (fun r => r.1 == ((1 : Nat), (1/4 : ℚ)).1)).map Prod.snd).sum ∧
    (0 + 1 < ([(1/4 : ℚ), 1/2]).length) ∧
    (equity_curve [1/4, 1/2]).getD 1 0 =
      (equity_curve [1/4, 1/2]).getD 0 0 * (1 + ([(1/4 : ℚ), 1/2]).getD 1 0) :=
  ⟨by with_unfolding_all decide,
   (equity_grouped_compounding [(2, 1/2), (1, 1/4)]).2.1 (1, 1/4)
     (by with_unfolding_all decide),
   by decide,
   (equity_grouped_compounding [(2, 1/2), (1, 1/4)]).2.2.2.2 [1/4, 1/2] 0 (by decide)⟩

/-- `run_backtest` from the point where the per-sheet trade lists have
been produced (lines 314-347): the concatenation of all per-sheet lists
must be nonempty, otherwise the run raises the source's RuntimeError
before any allocation, pnl, grouping or equity computation happens. -/
def run_backtest (cap bps : ℚ) (tradesPerSheet : List (List BTrade)) :
    Except String (List AllocTrade × List (Nat × ℚ) × List ℚ) :=
  if tradesPerSheet.flatten = [] then
    Except.error "未生成任何交易，请检查阈值或数据。"
  else
    Except.ok (allocate cap tradesPerSheet.flatten,
      period_pnl (pnlRows cap bps tradesPerSheet.flatten),
      equity_curve ((period_pnl (pnlRows cap bps tradesPerSheet.flatten)).map Prod.snd))

/-- C9. When every sheet and symbol contributes zero trades, the backtest
aborts with the RuntimeError of line 321 and returns no allocation, no
period pnl series and no equity curve. -/
theorem empty_universe_aborts (cap bps : ℚ) (tss : List (List BTrade))
    (h : ∀ l ∈ tss, l = []) :
    run_backtest cap bps tss = Except.error "未生成任何交易，请检查阈值或数据。" ∧
    ∀ out, run_backtest cap bps tss ≠ Except.ok out := by
  have hj : tss.flatten = [] := by
    rw [List.flatten_eq_nil_iff]
    exact h
  have herr : run_backtest cap bps tss = Except.error "未生成任何交易，请检查阈值或数据。" := by
    unfold run_backtest
    rw [if_pos hj]
  refine ⟨herr, ?_⟩
  intro out hout
  rw [herr] at hout
  exact Except.noConfusion hout

/-- Witness for C9 at a concrete all-empty universe. -/
theorem empty_universe_aborts_witness :
    (∀ l ∈ ([[], []] : List (List BTrade)), l = []) ∧
    run_backtest 1 0 [[], []] = Except.error "未生成任何交易，请检查阈值或数据。" :=
  ⟨by simp, (empty_universe_aborts 1 0 [[], []] (by simp)).1⟩

/-- The weekly close series of the end-to-end example: eight declining
closes followed by the next two closes 96 and 97. -/
def c4Prices : List ℚ := [100, 99, 98, 97, 96, 95, 94, 93, 96, 97]

/-- Counterexample to C4: on the example input with down_threshold = 7,
min_amplitude = 0.05, holding_periods = 1 and the EQUITY sizing profile,
the engine does not produce exactly one trade. -/
theorem c4_example_refuted :
    ¬ (generate_trades true ⟨7, 7, 1, 1/20⟩ ⟨4, 1/20, 2/5⟩ (3/5) c4Prices).length = 1 := by
  with_unfolding_all decide

/-- C4 amended: the example series has only 10 points, which is below the
minimum history `up_streak + down_streak + 5 = 19` required by
`generate_trades`, so the symbol is skipped entirely and no trade at all
is produced on this input. -/
theorem c4_short_history_no_trades :
    c4Prices.length < 7 + 7 + 5 ∧
    generate_trades true ⟨7, 7, 1, 1/20⟩ ⟨4, 1/20, 2/5⟩ (3/5) c4Prices = [] := by
  constructor
  · decide
  · with_unfolding_all decide
